import Mathlib

/-!
Verification development for the btcsimulator repository (src/block.py,
src/miner.py, src/main.py): a shallow embedding of the block data model,
the per-miner chain state and its `verify_block` / `add_block` /
`process_new_blocks` operations for the base, honest, SPV and attacker
miner variants, and the outcome skeleton of the two driver entry points.

Modelling conventions:
* Python floats (block sizes, virtual times, rates, hash-power fractions)
  are modelled as rationals.
* `sha256(block) = hashlib.sha256(pickle.dumps(block)).hexdigest()`
  (src/block.py lines 6-7) is modelled by identifying a fingerprint with
  the serialised field list that is hashed: SHA-256 is collision-free on
  every input this simulation produces, so distinct serialisations give
  distinct digests and equal serialisations give equal digests.  Where a
  proof needs collision-freeness over a set of blocks it appears as an
  explicit injectivity hypothesis.
* A miner's `blocks` dict is an association list from fingerprints to
  blocks; insertion conses, lookup takes the first match, which realises
  Python's dict-update semantics for lookups.
* Python's sentinel values (`chain_head = "*"`, `prev = None`) are both
  modelled as `Option.none` of their respective fields; the one place the
  two are compared with each other (`block.prev != self.chain_head` in
  `verify_block`) uses an explicit comparison that is true unless both
  sides are the same fingerprint, exactly as the Python values compare.
* Fallible dictionary accesses (Python `KeyError`) make the corresponding
  operation return `Option`, with `none` for the raised exception.
-/

/-- A block fingerprint: the serialised field list fed to SHA-256
(see the modelling note above). -/
abbrev Hash := List Nat

/-- Models `Block` from src/block.py lines 10-20: fields `prev`, `height`, `time`,
`miner_id`, `miner_name`, `size`, `valid`, plus the per-replica
`validated_yet` attribute that `SPVMiner.validate_chain_head`
(src/miner.py line 367) adds to a block object after the fact;
`validated_yet = none` models the attribute being absent, as it is on
every freshly constructed block. -/
structure Block where
  prev : Option Hash
  height : Nat
  time : ℚ
  miner_id : Int
  miner_name : String
  size : ℚ
  valid : Nat
  validated_yet : Option Bool
deriving DecidableEq, Repr

/-- Serialisation of an integer as a list of naturals (sign, magnitude). -/
def intL (i : Int) : List Nat :=
  match i with
  | .ofNat n => [0, n]
  | .negSucc n => [1, n]

/-- Serialisation of a rational as a list of naturals. -/
def ratL (q : ℚ) : List Nat :=
  intL q.num ++ [q.den]

/-- Serialisation of a string as a list of naturals (length-prefixed
character codes). -/
def strL (s : String) : List Nat :=
  s.length :: (s.toList.map Char.toNat)

/-- Serialisation of an optional fingerprint (length-prefixed;
tag 0 = Python `None`). -/
def optHashL (o : Option Hash) : List Nat :=
  match o with
  | none => [0]
  | some h => 1 :: h.length :: h

/-- Serialisation of the optional `validated_yet` attribute (absent /
False / True). -/
def optBoolL (o : Option Bool) : List Nat :=
  match o with
  | none => [0]
  | some false => [1, 0]
  | some true => [1, 1]

/-- Models `pickle.dumps(block)`: the serialised state of a block object.  As in
pickle, the serialisation covers the instance dictionary in insertion
order, so a `validated_yet` attribute that has been set is part of it. -/
def pickleDumps (b : Block) : List Nat :=
  optHashL b.prev ++ [b.height] ++ ratL b.time ++ intL b.miner_id ++
    strL b.miner_name ++ ratL b.size ++ [b.valid] ++ optBoolL b.validated_yet

/-- Models `sha256` from src/block.py lines 6-7: the fingerprint of a block is
the SHA-256 digest of its pickled state; digests are identified with the
hashed serialisations (collision-freeness of SHA-256 on the run's
inputs). -/
def sha256 (b : Block) : Hash :=
  pickleDumps b

/-- Models `self.blocks[self.chain_head].validated_yet = True` from
src/miner.py line 367 (`SPVMiner.validate_chain_head`): the per-replica
annotation an SPV miner writes onto a block object it holds. -/
def setValidatedYet (b : Block) : Block :=
  { b with validated_yet := some true }

/-- A miner's `blocks` dictionary: fingerprint-keyed association list. -/
abbrev BlockMap := List (Hash × Block)

/-- Dictionary lookup (`self.blocks[k]` / `k in self.blocks`):
first match wins. -/
def bmLookup (m : BlockMap) (k : Hash) : Option Block :=
  match m with
  | [] => none
  | (k2, b) :: t => if k = k2 then some b else bmLookup t k

/-- Dictionary update `self.blocks[k] = b`: the new binding shadows any
old one. -/
def bmInsert (m : BlockMap) (k : Hash) (b : Block) : BlockMap :=
  (k, b) :: m

/-- Python's `block.prev != self.chain_head` in `Miner.verify_block`
(src/miner.py line 176).  `prev` is `None` or a fingerprint string,
`chain_head` is `"*"` or a fingerprint string, so the two sides are equal
exactly when both are the same fingerprint. -/
def prevNeHead (prev : Option Hash) (chain_head : Option Hash) : Bool :=
  match prev, chain_head with
  | some p, some h => p ≠ h
  | _, _ => true

/-- Base miner chain view (src/miner.py lines 39-43): the block
dictionary, the chain-head pointer (`none` models the `"*"` sentinel) and
the pending-validation queue, together with the miner's id. -/
structure MinerState where
  selfId : Int
  blocks : BlockMap
  chain_head : Option Hash
  blocks_new : List Block
deriving DecidableEq, Repr

/-- Models `Miner.verify_block` from src/miner.py lines 174-184, shared by all
miner variants (none of the subclasses overrides it).  Results:
1 accept, 0 previous block unknown, -1 invalid structure. -/
def Miner.verify_block (selfId : Int) (blocks : BlockMap)
    (chain_head : Option Hash) (b : Block) : Int :=
  if b.miner_id = selfId ∧ prevNeHead b.prev chain_head then -1
  else
    match b.prev with
    | none => 0
    | some p =>
      match bmLookup blocks p with
      | none => 0
      | some pb => if b.height = pb.height + 1 then 1 else -1

/-- Result of an `add_block` call: the updated miner state and the
fingerprint broadcast with `HEAD_NEW` via `announce_block`, if any. -/
structure AddResult where
  st : MinerState
  announced : Option Hash
deriving DecidableEq, Repr

/-- Models `Miner.add_block` from src/miner.py lines 141-152: store the block;
if the head is the `"*"` sentinel, point it at this block; then, if the
block's height exceeds the (post-insertion) head block's height, adopt it
and announce the new head.  `none` models the `KeyError` raised when the
chain head is missing from `blocks`. -/
def Miner.add_block (s : MinerState) (b : Block) : Option AddResult :=
  let m := bmInsert s.blocks (sha256 b) b
  let h1 : Hash :=
    match s.chain_head with
    | none => sha256 b
    | some h => h
  match bmLookup m h1 with
  | none => none
  | some hb =>
    if hb.height < b.height then
      some ⟨{ s with blocks := m, chain_head := some (sha256 b) },
            some (sha256 b)⟩
    else
      some ⟨{ s with blocks := m, chain_head := some h1 }, none⟩

/-- Models `VERIFY_RATE` from src/miner.py line 20: 200 KiB per second. -/
def Miner.VERIFY_RATE : ℚ := 200 * 1024

/-- Models `BLOCK_RATE` from src/miner.py line 18: one block every ten minutes. -/
def Miner.BLOCK_RATE : ℚ := 1 / 600

/-- State threaded through one `process_new_blocks` pass: the evolving
miner state, the virtual time spent in `yield timeout(...)` so far, the
`BLOCK_REQUEST` payloads broadcast (each is a block's `prev` field, which
may be Python `None`), the `blocks_later` re-enqueue list, and the
`HEAD_NEW` fingerprints announced by nested `add_block` calls. -/
structure ProcState where
  st : MinerState
  elapsed : ℚ
  requests : List (Option Hash)
  later : List Block
  announced : List Hash
deriving DecidableEq, Repr

/-- One iteration of the loop in `Miner.process_new_blocks`
(src/miner.py lines 189-199): wait `size / verifyrate`, classify with
`verify_block`, then add / request-and-re-enqueue / drop. -/
def Miner.process_one (verifyrate : ℚ) (ps : ProcState) (b : Block) :
    Option ProcState :=
  let ps1 := { ps with elapsed := ps.elapsed + b.size / verifyrate }
  let v := Miner.verify_block ps1.st.selfId ps1.st.blocks ps1.st.chain_head b
  if v = 1 then
    (Miner.add_block ps1.st b).map fun r =>
      { ps1 with
        st := r.st
        announced := ps1.announced ++ r.announced.toList }
  else if v = 0 then
    some { ps1 with
           requests := ps1.requests ++ [b.prev]
           later := ps1.later ++ [b] }
  else
    some ps1

/-- The loop of `Miner.process_new_blocks` folded over the pending
queue. -/
def Miner.process_go (verifyrate : ℚ) (ps : ProcState) :
    List Block → Option ProcState
  | [] => some ps
  | b :: t =>
    match Miner.process_one verifyrate ps b with
    | none => none
    | some ps2 => Miner.process_go verifyrate ps2 t

/-- Models `Miner.process_new_blocks` from src/miner.py lines 186-200: validate
every queued block in insertion order, then replace `blocks_new` with the
re-enqueued `blocks_later` list. -/
def Miner.process_new_blocks (verifyrate : ℚ) (s : MinerState) :
    Option ProcState :=
  (Miner.process_go verifyrate ⟨{ s with blocks_new := [] }, 0, [], [], []⟩
      s.blocks_new).map fun ps =>
    { ps with st := { ps.st with blocks_new := ps.later } }

/-- Models `HonestMiner.add_block` from src/miner.py lines 272-283: identical to
the base `add_block` except that adopting the block as the new head
additionally requires `block.valid` to be truthy. -/
def HonestMiner.add_block (s : MinerState) (b : Block) : Option AddResult :=
  let m := bmInsert s.blocks (sha256 b) b
  let h1 : Hash :=
    match s.chain_head with
    | none => sha256 b
    | some h => h
  match bmLookup m h1 with
  | none => none
  | some hb =>
    if hb.height < b.height ∧ b.valid ≠ 0 then
      some ⟨{ s with blocks := m, chain_head := some (sha256 b) },
            some (sha256 b)⟩
    else
      some ⟨{ s with blocks := m, chain_head := some h1 }, none⟩

/-- Models `Miner.reset` (src/miner.py lines 57-66) specialised to an honest
miner: clear the chain view and re-add the seed block. -/
def HonestMiner.reset (selfId : Int) (seed : Block) : Option MinerState :=
  (HonestMiner.add_block ⟨selfId, [], none, []⟩ seed).map (·.st)

/-- A sequence of `HonestMiner.add_block` calls, as performed one block
at a time by the miner's validation loop. -/
def honestFold (s : MinerState) : List Block → Option MinerState
  | [] => some s
  | b :: t =>
    match HonestMiner.add_block s b with
    | none => none
    | some r => honestFold r.st t

/-- SPV miner chain view (src/miner.py lines 286-293): the base fields
plus `chain_head_others`, the head of the longest valid chain
(`none` models its `"*"` sentinel), and the validation fraction. -/
structure SPVState where
  selfId : Int
  blocks : BlockMap
  chain_head : Option Hash
  chain_head_others : Option Hash
  blocks_new : List Block
  val_frac : ℚ
deriving DecidableEq, Repr

/-- Result of `SPVMiner.add_block`: updated state and the `HEAD_NEW`
fingerprints announced (the SPV variant can announce twice). -/
structure SPVAddResult where
  st : SPVState
  announced : List Hash
deriving DecidableEq, Repr

/-- Models `SPVMiner.add_block` from src/miner.py lines 321-337: store the
block; if `chain_head` is the sentinel, point both heads at this block;
adopt as `chain_head` on strictly greater height regardless of validity;
adopt as `chain_head_others` on strictly greater height than that head
when the block is valid.  `none` models the `KeyError` on a missing head
key (including `chain_head_others` still being `"*"`). -/
def SPVMiner.add_block (s : SPVState) (b : Block) : Option SPVAddResult :=
  let m := bmInsert s.blocks (sha256 b) b
  match s.chain_head with
  | none =>
    -- both heads become this block; both height comparisons then read the
    -- freshly inserted block and fail strictly
    some ⟨{ s with
            blocks := m
            chain_head := some (sha256 b)
            chain_head_others := some (sha256 b) }, []⟩
  | some h =>
    match bmLookup m h with
    | none => none
    | some hb =>
      let ch : Hash := if hb.height < b.height then sha256 b else h
      let ann1 : List Hash := if hb.height < b.height then [sha256 b] else []
      match s.chain_head_others with
      | none => none
      | some o =>
        match bmLookup m o with
        | none => none
        | some ob =>
          if ob.height < b.height ∧ b.valid ≠ 0 then
            some ⟨{ s with
                    blocks := m
                    chain_head := some ch
                    chain_head_others := some (sha256 b) },
                  ann1 ++ [sha256 b]⟩
          else
            some ⟨{ s with
                    blocks := m
                    chain_head := some ch
                    chain_head_others := some o }, ann1⟩

/-- State threaded through one `SPVMiner.process_new_blocks` pass
(mirror of `ProcState` for the SPV chain view). -/
structure SPVProcState where
  st : SPVState
  elapsed : ℚ
  requests : List (Option Hash)
  later : List Block
  announced : List Hash
deriving DecidableEq, Repr

/-- One iteration of the loop in `SPVMiner.process_new_blocks`
(src/miner.py lines 308-318): the SPV miner skips payload validation and
waits only the constant `0.0000001`, then classifies with the inherited
`verify_block`. -/
def SPVMiner.process_one (ps : SPVProcState) (b : Block) :
    Option SPVProcState :=
  let ps1 := { ps with elapsed := ps.elapsed + 1 / 10000000 }
  let v := Miner.verify_block ps1.st.selfId ps1.st.blocks ps1.st.chain_head b
  if v = 1 then
    (SPVMiner.add_block ps1.st b).map fun r =>
      { ps1 with
        st := r.st
        announced := ps1.announced ++ r.announced }
  else if v = 0 then
    some { ps1 with
           requests := ps1.requests ++ [b.prev]
           later := ps1.later ++ [b] }
  else
    some ps1

/-- The loop of `SPVMiner.process_new_blocks` folded over the pending
queue. -/
def SPVMiner.process_go (ps : SPVProcState) :
    List Block → Option SPVProcState
  | [] => some ps
  | b :: t =>
    match SPVMiner.process_one ps b with
    | none => none
    | some ps2 => SPVMiner.process_go ps2 t

/-- Models `SPVMiner.process_new_blocks` from src/miner.py lines 305-319. -/
def SPVMiner.process_new_blocks (s : SPVState) : Option SPVProcState :=
  (SPVMiner.process_go ⟨{ s with blocks_new := [] }, 0, [], [], []⟩
      s.blocks_new).map fun ps =>
    { ps with st := { ps.st with blocks_new := ps.later } }

/-- The virtual-time delay of the deferred `SPVMiner.validate_chain_head`
activity (src/miner.py line 366): `val_frac * (size / verifyrate)` for
the chain-head block it validates. -/
def SPVMiner.validate_chain_head_delay (val_frac verifyrate : ℚ)
    (b : Block) : ℚ :=
  val_frac * (b.size / verifyrate)

/-- Attack miner chain view (src/miner.py lines 406-429): the base fields
plus `chain_head_others` (`none` models its `"*"` sentinel), the target
confirmation count, the two race counters, the win/lose tallies and the
`restart` mode flag. -/
structure AttackState where
  selfId : Int
  blocks : BlockMap
  chain_head : Option Hash
  chain_head_others : Option Hash
  tgt_cfrms : Int
  invalid_len : Int
  honest_len : Int
  wins : Int
  loses : Int
  restart : Bool
deriving DecidableEq, Repr

/-- Result of an `AttackMiner.add_block` call: the updated state, the
`HEAD_NEW` fingerprints announced, and whether the `win` / `lose` signal
was fired (`self.win.succeed()` / `self.lose.succeed()`). -/
structure AttackResult where
  st : AttackState
  announced : List Hash
  firedWin : Bool
  firedLose : Bool
deriving DecidableEq, Repr

/-- The branch logic of `AttackMiner.add_block`, src/miner.py lines
454-482 (everything before the target-confirmation check): store the
block; initialise both heads from the sentinel; an invalid block that
extends `chain_head` in height is adopted and grows `invalid_len`; a
valid block that extends `chain_head_others` in height is adopted as that
head and, when `restart` is off, grows `honest_len` only if the attacker
has already forked (`invalid_len > 0`) and may re-base `chain_head` onto
the valid tip, while when `restart` is on it grows `honest_len`
unconditionally.  `none` models a `KeyError` on a missing head key. -/
def AttackMiner.add_block_core (s : AttackState) (b : Block) :
    Option AttackResult :=
  let m := bmInsert s.blocks (sha256 b) b
  let hd : Hash :=
    match s.chain_head with
    | none => sha256 b
    | some h => h
  let ot : Option Hash :=
    match s.chain_head with
    | none => some (sha256 b)
    | some _ => s.chain_head_others
  let s1 := { s with
              blocks := m
              chain_head := some hd
              chain_head_others := ot }
  if b.valid = 0 then
    match bmLookup m hd with
    | none => none
    | some hb =>
      if hb.height < b.height then
        some ⟨{ s1 with
                chain_head := some (sha256 b)
                invalid_len := s1.invalid_len + 1 },
              [sha256 b], false, false⟩
      else some ⟨s1, [], false, false⟩
  else
    match ot with
    | none => none
    | some o =>
      match bmLookup m o with
      | none => none
      | some ob =>
        if ob.height < b.height then
          let s2 := { s1 with chain_head_others := some (sha256 b) }
          if s.restart = false then
            let hl : Int := if (0 : Int) < s2.invalid_len then
                              s2.honest_len + 1
                            else s2.honest_len
            match bmLookup m hd with
            | none => none
            | some hb =>
              if (hb.height < b.height ∧ s2.invalid_len = (0 : Int)) ∨
                  hl = s2.tgt_cfrms then
                some ⟨{ s2 with
                        honest_len := hl
                        chain_head := some (sha256 b) },
                      [sha256 b], false, false⟩
              else some ⟨{ s2 with honest_len := hl }, [], false, false⟩
          else
            some ⟨{ s2 with honest_len := s2.honest_len + 1 },
                  [], false, false⟩
        else some ⟨s1, [], false, false⟩

/-- The target-confirmation check closing `AttackMiner.add_block`,
src/miner.py lines 483-495: when either race counter has reached
`tgt_cfrms`, tally the outcome, fire the corresponding signal and reset
both counters. -/
def AttackMiner.reset_check (r : AttackResult) : AttackResult :=
  let s := r.st
  if s.invalid_len = s.tgt_cfrms ∨ s.honest_len = s.tgt_cfrms then
    if s.invalid_len = s.tgt_cfrms then
      ⟨{ s with
         wins := s.wins + 1
         invalid_len := 0
         honest_len := 0 },
       r.announced, true, r.firedLose⟩
    else
      ⟨{ s with
         loses := s.loses + 1
         invalid_len := 0
         honest_len := 0 },
       r.announced, r.firedWin, true⟩
  else r

/-- Models `AttackMiner.add_block` from src/miner.py lines 454-495: the branch
logic followed by the target-confirmation check. -/
def AttackMiner.add_block (s : AttackState) (b : Block) :
    Option AttackResult :=
  (AttackMiner.add_block_core s b).map AttackMiner.reset_check

/-- Error raised at driver entry (src/main.py line 81). -/
inductive DriverError where
  | invalidPowerFractions
deriving DecidableEq, Repr

/-- Value returned by a driver entry point: an exit code or, for
`mixed_spv_attack`, the `(wins, loses)` pair. -/
inductive RunReturn where
  | code (n : Int)
  | pair (wins loses : Int)
deriving DecidableEq, Repr

/-- Outcome skeleton of `Simulator.standard` (src/main.py lines 21-71):
the returned value together with whether the simulation body ran.
`dbOk` is whether the persistence layer is reachable (`clear_db()`
raising `ConnectionError` models it unreachable). -/
def Simulator.standard_run (dbOk : Bool) : RunReturn × Bool :=
  if dbOk then (.code 0, true) else (.code (-1), false)

/-- The fail-fast prefix of `Simulator.mixed_spv_attack` (src/main.py
lines 74-81): the only configuration check performed before anything is
constructed is `alpha + beta > 1.0`, which raises
`ValueError("Invalid power fractions")`. -/
def Simulator.mixed_spv_attack_guard (alpha beta days : ℚ)
    (target_confirmations : Int) (tSPV : ℚ) : Except DriverError Unit :=
  if alpha + beta > 1 then .error .invalidPowerFractions else .ok ()

/-- Outcome skeleton of `Simulator.mixed_spv_attack` (src/main.py lines
73-135): fail fast on the power-fraction check, return `-1` without
running when persistence is unreachable, and otherwise run and return the
`(attack_miner.wins, attack_miner.loses)` pair (line 135).  `wins` and
`loses` stand for the attacker's tallies at the end of the run. -/
def Simulator.mixed_spv_attack_run (alpha beta : ℚ) (dbOk : Bool)
    (wins loses : Int) : Except DriverError (RunReturn × Bool) :=
  if alpha + beta > 1 then .error .invalidPowerFractions
  else if dbOk then .ok (.pair wins loses, true)
  else .ok (.code (-1), false)

/-- The mining policy of the base `Miner.mine_block` (src/miner.py lines
101-108): a block on top of the current head block, one higher, always
marked valid. -/
def Miner.mine_policy (head : Block) (now size : ℚ) (selfId : Int)
    (name : String) : Block :=
  ⟨some (sha256 head), head.height + 1, now, selfId, name, size, 1, none⟩

/-- The mining policy of `SPVMiner.mine_block` (src/miner.py lines
378-397): size zero, validity inherited from the current head block. -/
def SPVMiner.mine_policy (head : Block) (now : ℚ) (selfId : Int)
    (name : String) : Block :=
  ⟨some (sha256 head), head.height + 1, now, selfId, name, 0,
    if head.valid = 1 then 1 else 0, none⟩

/-- The mining policy of `AttackMiner.mine_block` (src/miner.py lines
501-514): always an invalid block on top of the current head block. -/
def AttackMiner.mine_policy (head : Block) (now size : ℚ) (selfId : Int)
    (name : String) : Block :=
  ⟨some (sha256 head), head.height + 1, now, selfId, name, size, 0, none⟩

/-- The fingerprints on the prev-chain of a block map, starting from a
given fingerprint: `OnChain m h h2` holds when `h2` is reached from `h`
by repeatedly looking the current fingerprint up in `m` and following the
block's `prev` field. -/
inductive OnChain (m : BlockMap) : Hash → Hash → Prop where
  | refl (h : Hash) : OnChain m h h
  | step (h : Hash) (hb : Block) (p h2 : Hash) :
      bmLookup m h = some hb → hb.prev = some p → OnChain m p h2 →
      OnChain m h h2

/-- A block map whose every binding keys a block of the universe `U` by
its own fingerprint (every map a miner builds satisfies this: `add_block`
always inserts under `sha256 block`, and every block it is handed was
created during the run). -/
def GoodMap (U : Block → Prop) (m : BlockMap) : Prop :=
  ∀ k b, bmLookup m k = some b → k = sha256 b ∧ U b

/-- Validity is hereditary in the universe `U` of blocks created during a
run: validity bits are 0/1, and the parent of a valid block is valid.
Every mining policy in the source guarantees this: the base miner mines
valid blocks on its own (valid) head, the SPV miner inherits the head's
validity bit, and the attack miner mines only invalid blocks. -/
def Hered (U : Block → Prop) : Prop :=
  (∀ b, U b → b.valid = 0 ∨ b.valid = 1) ∧
  (∀ b, U b → b.valid ≠ 0 → ∀ p, b.prev = some p →
    ∀ b2, U b2 → sha256 b2 = p → b2.valid ≠ 0)

/-- SHA-256 collision-freeness on the universe of blocks created during a
run: distinct blocks have distinct fingerprints. -/
def HashInj (U : Block → Prop) : Prop :=
  ∀ b b2, U b → U b2 → sha256 b = sha256 b2 → b = b2

/-- The honest-miner chain-view invariant: the map is a well-keyed map of
universe blocks, and the chain head points at a block of the map whose
validity bit is truthy. -/
def HonestInv (U : Block → Prop) (s : MinerState) : Prop :=
  GoodMap U s.blocks ∧
  ∃ h hb, s.chain_head = some h ∧ bmLookup s.blocks h = some hb ∧
    hb.valid ≠ 0

/-- The seed block of the mixed scenario, src/main.py line 101:
`Block(None, 0, env.now, -1, 'seed', 0, 1)`. -/
def gB : Block := ⟨none, 0, 0, -1, "seed", 0, 1, none⟩

/-- A valid honest-mined block on top of the seed block. -/
def bHon : Block := ⟨some (sha256 gB), 1, 1, 1, "hon", 100, 1, none⟩

/-- An invalid attacker-mined block on top of the seed block. -/
def bInv : Block := ⟨some (sha256 gB), 1, 1, 2, "att", 50, 0, none⟩

/-- Concrete SPV-miner state holding the seed block with one pending
valid block and full validation fraction. -/
def spvS : SPVState :=
  ⟨3, [(sha256 gB, gB)], some (sha256 gB), some (sha256 gB), [bHon], 1⟩

/-- Concrete base-miner state holding only the seed block. -/
def honS : MinerState := ⟨1, [(sha256 gB, gB)], some (sha256 gB), []⟩

/-- Concrete validation-pass state for a miner that knows no blocks, so
that an arriving block's parent is unknown. -/
def c6PS : ProcState := ⟨⟨2, [], some (sha256 gB), []⟩, 0, [], [], []⟩

/-- Concrete, freshly-reset attacker state in restart mode with the race
not yet begun (`invalid_len = 0`). -/
def c3S : AttackState :=
  ⟨2, [(sha256 gB, gB)], some (sha256 gB), some (sha256 gB), 3, 0, 0, 0, 0,
    true⟩

/-- Concrete attacker state (restart off) that has already forked
(`invalid_len = 1`). -/
def c3T : AttackState :=
  ⟨2, [(sha256 gB, gB)], some (sha256 gB), some (sha256 gB), 5, 1, 0, 0, 0,
    false⟩

/-- The branch-logic result of feeding `bHon` to the attacker state
`c3T`. -/
def c3C : AttackResult :=
  ⟨⟨2, [(sha256 bHon, bHon), (sha256 gB, gB)], some (sha256 gB),
    some (sha256 bHon), 5, 1, 1, 0, 0, false⟩, [], false, false⟩

/-- Concrete attacker state with a single target confirmation, one block
short of winning. -/
def c4S : AttackState :=
  ⟨2, [(sha256 gB, gB)], some (sha256 gB), some (sha256 gB), 1, 0, 0, 0, 0,
    false⟩

/-- The branch-logic result of feeding `bInv` to the attacker state
`c4S`. -/
def c4C : AttackResult :=
  ⟨⟨2, [(sha256 bInv, bInv), (sha256 gB, gB)], some (sha256 bInv),
    some (sha256 gB), 1, 1, 0, 0, 0, false⟩, [sha256 bInv], false, false⟩

/-- The universe of blocks of a tiny honest run: the seed block and one
honest block on top of it. -/
def U0 : Block → Prop := fun x => x = gB ∨ x = bHon

/-- The result of the SPV validation pass on `spvS`: the pending valid
block is verified and adopted by both heads, and the pass spends exactly
one constant timeout. -/
def spvPr : SPVProcState :=
  ⟨⟨3, [(sha256 bHon, bHon), (sha256 gB, gB)], some (sha256 bHon),
    some (sha256 bHon), [], 1⟩, 0 + 1 / 10000000, [], [],
    [sha256 bHon, sha256 bHon]⟩

/-- Concrete miner state knowing only the seed block, for a miner with
id 2. -/
def c6M : MinerState := ⟨2, [(sha256 gB, gB)], some (sha256 gB), []⟩

/-- A block mined by miner 2 itself whose `prev` fingerprint is unknown
to `c6M` and differs from its chain head (the situation after a mined
block survives a state reset). -/
def c6B : Block := ⟨some [3], 5, 0, 2, "att", 10, 1, none⟩

/-- C1: the claim says the fingerprint `sha256(block)` computed at
creation equals the fingerprint computed at any later time, and in
particular that an SPV miner setting `validated_yet` on a block does not
change the block's fingerprint.  The code violates this: the fingerprint
is the SHA-256 digest of `pickle.dumps(block)`, the pickled state gains
the `validated_yet` entry when `SPVMiner.validate_chain_head` sets it
(src/miner.py line 367), and distinct pickled states have distinct
digests.  Evaluated here on the seed block. -/
theorem c1_validated_yet_changes_fingerprint :
    sha256 (setValidatedYet gB) ≠ sha256 gB := by decide

/-- C10: `verify_block` (shared, un-overridden, by the base, SPV and
attacker miners) never reads the block's `valid` bit, so two blocks that
differ only in `valid` are classified identically in every miner
state. -/
theorem c10_verify_block_ignores_valid (selfId : Int) (m : BlockMap)
    (ch : Option Hash) (b : Block) (v : Nat) :
    Miner.verify_block selfId m ch { b with valid := v } =
      Miner.verify_block selfId m ch b := rfl

/-- C8 counterexample: the claim says `mixed_spv_attack` fails fast on a
negative hash share or on `k ≤ 0`; in the code the only entry check
(src/main.py line 81) is `alpha + beta > 1.0`, so the configuration
`alpha = -1, beta = 1/2, k = 0` is accepted. -/
theorem c8_guard_accepts_negative_share_and_zero_k :
    Simulator.mixed_spv_attack_guard (-1) (1/2) 10 0 (1/2) = .ok () ∧
    (-1 : ℚ) < 0 ∧ (0 : Int) ≤ 0 := by
  refine ⟨?_, by norm_num, by norm_num⟩
  unfold Simulator.mixed_spv_attack_guard
  rw [if_neg (by norm_num)]

/-- C8 amended: `mixed_spv_attack` fails fast exactly when
`alpha + beta > 1`; negative shares and non-positive target confirmation
counts are not checked at driver entry. -/
theorem c8_guard_rejects_exactly_power_excess (alpha beta days : ℚ)
    (k : Int) (tSPV : ℚ) :
    (∃ e, Simulator.mixed_spv_attack_guard alpha beta days k tSPV =
      .error e) ↔ 1 < alpha + beta := by
  unfold Simulator.mixed_spv_attack_guard
  by_cases h : 1 < alpha + beta
  · rw [if_pos h]
    exact ⟨fun _ => h, fun _ => ⟨.invalidPowerFractions, rfl⟩⟩
  · rw [if_neg h]
    exact ⟨fun he => absurd he.choose_spec (fun hc => Except.noConfusion hc),
           fun hc => absurd hc h⟩

/-- C9 counterexample: the claim says both entry points return 0 on
success; `mixed_spv_attack` instead returns the
`(attack_miner.wins, attack_miner.loses)` pair (src/main.py line 135),
here evaluated for a reachable-persistence run with tallies (2, 3). -/
theorem c9_mixed_returns_pair_not_zero :
    Simulator.mixed_spv_attack_run (1/5) (1/2) true 2 3 =
      .ok (.pair 2 3, true) ∧
    RunReturn.pair 2 3 ≠ RunReturn.code 0 := by
  refine ⟨?_, by decide⟩
  unfold Simulator.mixed_spv_attack_run
  rw [if_neg (by norm_num), if_pos rfl]

/-- C9 amended: `standard` returns 0 on success and -1 when persistence
is unreachable; `mixed_spv_attack` (with an accepted configuration)
returns the `(wins, loses)` pair on success and -1 when persistence is
unreachable; in the -1 cases the simulation does not run. -/
theorem c9_driver_return_values (alpha beta : ℚ) (w l : Int)
    (h : alpha + beta ≤ 1) :
    Simulator.standard_run true = (.code 0, true) ∧
    Simulator.standard_run false = (.code (-1), false) ∧
    Simulator.mixed_spv_attack_run alpha beta true w l =
      .ok (.pair w l, true) ∧
    Simulator.mixed_spv_attack_run alpha beta false w l =
      .ok (.code (-1), false) := by
  refine ⟨rfl, rfl, ?_, ?_⟩ <;>
    simp [Simulator.mixed_spv_attack_run, not_lt.mpr h]

/-- C9 amended, witnessed at `alpha = 1/2, beta = 1/4` and tallies
(2, 3). -/
theorem c9_driver_return_values_witness :
    Simulator.standard_run true = (.code 0, true) ∧
    Simulator.standard_run false = (.code (-1), false) ∧
    Simulator.mixed_spv_attack_run (1/2) (1/4) true 2 3 =
      .ok (.pair 2 3, true) ∧
    Simulator.mixed_spv_attack_run (1/2) (1/4) false 2 3 =
      .ok (.code (-1), false) :=
  c9_driver_return_values (1/2) (1/4) 2 3 (by norm_num)

theorem spv_process_one_elapsed (ps ps2 : SPVProcState) (b : Block)
    (h : SPVMiner.process_one ps b = some ps2) :
    ps2.elapsed = ps.elapsed + 1 / 10000000 := by
  simp only [SPVMiner.process_one] at h
  split at h
  · rcases Option.map_eq_some'.mp h with ⟨r, _, hr⟩
    rw [← hr]
  · split at h
    · cases h
      rfl
    · cases h
      rfl

theorem spv_process_go_elapsed (q : List Block) : ∀ ps pr : SPVProcState,
    SPVMiner.process_go ps q = some pr →
    pr.elapsed = ps.elapsed + q.length * (1 / 10000000) := by
  induction q with
  | nil =>
    intro ps pr h
    unfold SPVMiner.process_go at h
    cases h
    simp
  | cons b t ih =>
    intro ps pr h
    unfold SPVMiner.process_go at h
    cases hh : SPVMiner.process_one ps b with
    | none => rw [hh] at h; cases h
    | some ps2 =>
      rw [hh] at h
      rw [ih ps2 pr h, spv_process_one_elapsed ps ps2 b hh]
      simp only [List.length_cons]
      push_cast
      ring

/-- C5 counterexample: the claim says the virtual-time validation delay
an SPV miner spends in `process_new_blocks` before classifying a block
equals `val_frac * size / verifyrate`; in the code (src/miner.py line
311) it is the constant `0.0000001`.  On the concrete state `spvS`
(`val_frac = 1`, one pending block of size 100) the pass spends
`1 / 10000000`, which differs from the claimed
`val_frac * size / VERIFY_RATE`. -/
theorem c5_spv_delay_is_constant_not_scaled :
    SPVMiner.process_new_blocks spvS = some spvPr ∧
    spvPr.elapsed = 1 / 10000000 ∧
    spvS.val_frac = 1 ∧
    spvPr.elapsed ≠ spvS.val_frac * (bHon.size / Miner.VERIFY_RATE) := by
  refine ⟨rfl, by norm_num [spvPr], rfl, ?_⟩
  norm_num [spvPr, spvS, bHon, Miner.VERIFY_RATE]

/-- C5 amended: the delay an SPV miner spends in `process_new_blocks`
before classifying its pending blocks is the constant `0.0000001` per
queued block, independent of `val_frac` and of the block sizes; the
`val_frac * size / verifyrate` delay is instead spent by the deferred
`validate_chain_head` activity, which is zero for `val_frac = 0` and
equals the fully-validating delay `size / verifyrate` for
`val_frac = 1`. -/
theorem c5_spv_process_delay_constant (s : SPVState) (pr : SPVProcState)
    (h : SPVMiner.process_new_blocks s = some pr) :
    pr.elapsed = s.blocks_new.length * (1 / 10000000) ∧
    (∀ vr b, SPVMiner.validate_chain_head_delay 0 vr b = 0) ∧
    (∀ vr b, SPVMiner.validate_chain_head_delay 1 vr b = b.size / vr) := by
  refine ⟨?_, fun vr b => by simp [SPVMiner.validate_chain_head_delay],
    fun vr b => by simp [SPVMiner.validate_chain_head_delay]⟩
  unfold SPVMiner.process_new_blocks at h
  rcases Option.map_eq_some'.mp h with ⟨pr0, h0, hpr⟩
  have he := spv_process_go_elapsed s.blocks_new _ pr0 h0
  rw [← hpr]
  simpa using he

/-- C5 amended, witnessed on the concrete SPV state `spvS` with its
single pending block. -/
theorem c5_spv_process_delay_constant_witness :
    spvPr.elapsed = spvS.blocks_new.length * (1 / 10000000) :=
  (c5_spv_process_delay_constant spvS spvPr rfl).1

/-- C6 counterexample: the claim says `verify_block` returns 0 for every
block whose `prev` is not in the miner's `blocks` map; the self-mined
check comes first in the code (src/miner.py lines 176-177), so a
self-mined block with unknown `prev` differing from the chain head
returns -1 (silent drop), not 0. -/
theorem c6_self_mined_unknown_prev_drops :
    c6B.miner_id = c6M.selfId ∧
    c6B.prev = some [3] ∧
    bmLookup c6M.blocks [3] = none ∧
    Miner.verify_block c6M.selfId c6M.blocks c6M.chain_head c6B = -1 ∧
    (-1 : Int) ≠ 0 := by decide

theorem verify_eq_zero_iff (sid : Int) (m2 : BlockMap) (ch2 : Option Hash)
    (b : Block) :
    Miner.verify_block sid m2 ch2 b = 0 ↔
      ¬(b.miner_id = sid ∧ prevNeHead b.prev ch2 = true) ∧
      ∀ p, b.prev = some p → bmLookup m2 p = none := by
  unfold Miner.verify_block
  split
  · rename_i hf
    constructor
    · intro h
      exact absurd h (by decide)
    · intro hc
      exact absurd hf hc.1
  · rename_i hf
    split
    · rename_i hp
      constructor
      · intro _
        exact ⟨hf, fun p hps => absurd (hp ▸ hps) (by simp)⟩
      · intro _
        rfl
    · rename_i p hp
      cases hl : bmLookup m2 p with
      | none =>
        dsimp only
        constructor
        · intro _
          refine ⟨hf, fun p2 hp2 => ?_⟩
          rw [hp] at hp2
          cases hp2
          exact hl
        · intro _
          rfl
      | some pb =>
        dsimp only
        by_cases hh : b.height = pb.height + 1
        · rw [if_pos hh]
          constructor
          · intro h
            exact absurd h (by decide)
          · intro hc
            have h2 := hc.2 p hp
            rw [hl] at h2
            exact Option.noConfusion h2
        · rw [if_neg hh]
          constructor
          · intro h
            exact absurd h (by decide)
          · intro hc
            have h2 := hc.2 p hp
            rw [hl] at h2
            exact Option.noConfusion h2

theorem verify_eq_neg_one_iff (sid : Int) (m2 : BlockMap)
    (ch2 : Option Hash) (b : Block) :
    Miner.verify_block sid m2 ch2 b = -1 ↔
      ((b.miner_id = sid ∧ prevNeHead b.prev ch2 = true) ∨
       ∃ p pb, b.prev = some p ∧ bmLookup m2 p = some pb ∧
         b.height ≠ pb.height + 1) := by
  unfold Miner.verify_block
  split
  · rename_i hf
    constructor
    · intro _
      exact Or.inl hf
    · intro _
      rfl
  · rename_i hf
    split
    · rename_i hp
      constructor
      · intro h
        exact absurd h (by decide)
      · intro hc
        rcases hc with hc | ⟨p, pb, hps, _, _⟩
        · exact absurd hc hf
        · exact absurd (hp ▸ hps) (by simp)
    · rename_i p hp
      cases hl : bmLookup m2 p with
      | none =>
        dsimp only
        constructor
        · intro h
          exact absurd h (by decide)
        · intro hc
          rcases hc with hc | ⟨p2, pb2, hps, hl2, _⟩
          · exact absurd hc hf
          · rw [hp] at hps
            cases hps
            rw [hl] at hl2
            exact Option.noConfusion hl2
      | some pb =>
        dsimp only
        by_cases hh : b.height = pb.height + 1
        · rw [if_pos hh]
          constructor
          · intro h
            exact absurd h (by decide)
          · intro hc
            rcases hc with hc | ⟨p2, pb2, hps, hl2, hne⟩
            · exact absurd hc hf
            · rw [hp] at hps
              cases hps
              rw [hl] at hl2
              cases hl2
              exact absurd hh hne
        · rw [if_neg hh]
          constructor
          · intro _
            exact Or.inr ⟨p, pb, hp, hl, hh⟩
          · intro _
            rfl

/-- C6 amended: a block with unknown `prev` is classified 0 by
`verify_block` unless it is self-mined with `prev` different from the
chain head, in which case the self-mined check fires first and the result
is -1; the result is -1 exactly when the block is self-mined with `prev`
different from the chain head, or `prev` is known with a height mismatch;
and `process_new_blocks` reacts to a 0 classification by broadcasting a
`BLOCK_REQUEST` for the missing `prev` and re-enqueueing the block for a
later pass. -/
theorem c6_verify_block_characterisation (selfId : Int) (m : BlockMap)
    (ch : Option Hash) (b : Block) (vr : ℚ) (ps : ProcState) :
    (Miner.verify_block selfId m ch b = 0 ↔
      ¬(b.miner_id = selfId ∧ prevNeHead b.prev ch = true) ∧
      ∀ p, b.prev = some p → bmLookup m p = none) ∧
    (Miner.verify_block selfId m ch b = -1 ↔
      ((b.miner_id = selfId ∧ prevNeHead b.prev ch = true) ∨
       ∃ p pb, b.prev = some p ∧ bmLookup m p = some pb ∧
         b.height ≠ pb.height + 1)) ∧
    (Miner.verify_block ps.st.selfId ps.st.blocks ps.st.chain_head b = 0 →
      Miner.process_one vr ps b =
        some { ps with
               elapsed := ps.elapsed + b.size / vr
               requests := ps.requests ++ [b.prev]
               later := ps.later ++ [b] }) := by
  refine ⟨verify_eq_zero_iff selfId m ch b,
    verify_eq_neg_one_iff selfId m ch b, ?_⟩
  intro h0
  simp [Miner.process_one, h0]

/-- C6 amended, witnessed: a block whose parent is unknown to the miner
of `c6PS` is requested and re-enqueued by the validation pass. -/
theorem c6_verify_block_characterisation_witness :
    Miner.process_one Miner.VERIFY_RATE c6PS bHon =
      some { c6PS with
             elapsed := c6PS.elapsed + bHon.size / Miner.VERIFY_RATE
             requests := c6PS.requests ++ [bHon.prev]
             later := c6PS.later ++ [bHon] } :=
  (c6_verify_block_characterisation c6PS.st.selfId c6PS.st.blocks
    c6PS.st.chain_head bHon Miner.VERIFY_RATE c6PS).2.2 (by decide)

theorem bmLookup_insert (m : BlockMap) (k : Hash) (b : Block) (k2 : Hash) :
    bmLookup (bmInsert m k b) k2 = if k2 = k then some b else bmLookup m k2 := by
  simp [bmInsert, bmLookup]

theorem add_block_none (s : MinerState) (b : Block)
    (hch : s.chain_head = none) :
    Miner.add_block s b =
      some ⟨{ s with
              blocks := bmInsert s.blocks (sha256 b) b
              chain_head := some (sha256 b) }, none⟩ := by
  unfold Miner.add_block
  rw [hch]
  dsimp only
  rw [bmLookup_insert, if_pos rfl]
  dsimp only
  rw [if_neg (lt_irrefl b.height)]

theorem add_block_some (s : MinerState) (b : Block) (h : Hash) (hb : Block)
    (hch : s.chain_head = some h) (hlk : bmLookup s.blocks h = some hb) :
    Miner.add_block s b =
      (if (if h = sha256 b then b else hb).height < b.height then
        some ⟨{ s with
                blocks := bmInsert s.blocks (sha256 b) b
                chain_head := some (sha256 b) }, some (sha256 b)⟩
      else
        some ⟨{ s with
                blocks := bmInsert s.blocks (sha256 b) b
                chain_head := some h }, none⟩) := by
  unfold Miner.add_block
  rw [hch]
  dsimp only
  rw [bmLookup_insert]
  by_cases he : h = sha256 b
  · rw [if_pos he, if_pos he]
  · rw [if_neg he, if_neg he, hlk]

/-- C7: the base `add_block` inserts the block into `blocks`; a sentinel
chain head is pointed at the block without a broadcast; otherwise the
head moves to the block and a `HEAD_NEW` broadcast happens exactly when
the block's height strictly exceeds the current head block's height, and
an equal-height block leaves the head unchanged (first-arrived stays). -/
theorem c7_base_add_block (s : MinerState) (b : Block) :
    (s.chain_head = none →
      ∃ r, Miner.add_block s b = some r ∧
        r.st.chain_head = some (sha256 b) ∧ r.announced = none ∧
        bmLookup r.st.blocks (sha256 b) = some b) ∧
    (∀ h hb, s.chain_head = some h → bmLookup s.blocks h = some hb →
      ∃ r, Miner.add_block s b = some r ∧
        bmLookup r.st.blocks (sha256 b) = some b ∧
        ((r.st.chain_head = some (sha256 b) ∧
          r.announced = some (sha256 b)) ↔
         (if h = sha256 b then b else hb).height < b.height) ∧
        (b.height = (if h = sha256 b then b else hb).height →
          r.st.chain_head = s.chain_head ∧ r.announced = none)) := by
  constructor
  · intro hch
    refine ⟨_, add_block_none s b hch, rfl, rfl, ?_⟩
    rw [bmLookup_insert, if_pos rfl]
  · intro h hb hch hlk
    rw [add_block_some s b h hb hch hlk]
    by_cases hlt : (if h = sha256 b then b else hb).height < b.height
    · rw [if_pos hlt]
      refine ⟨_, rfl, ?_, ?_, ?_⟩
      · rw [bmLookup_insert, if_pos rfl]
      · simp [hlt]
      · intro heq
        exact absurd (heq ▸ hlt) (lt_irrefl _)
    · rw [if_neg hlt]
      refine ⟨_, rfl, ?_, ?_, fun heq => ⟨by rw [hch], rfl⟩⟩
      · rw [bmLookup_insert, if_pos rfl]
      · simp [hlt]

/-- C7, witnessed: adding the honest height-1 block to the seed-only
state `honS` moves the head and broadcasts the new head. -/
theorem c7_base_add_block_witness :
    ∃ r, Miner.add_block honS bHon = some r ∧
      bmLookup r.st.blocks (sha256 bHon) = some bHon ∧
      ((r.st.chain_head = some (sha256 bHon) ∧
        r.announced = some (sha256 bHon)) ↔
       (if sha256 gB = sha256 bHon then bHon else gB).height < bHon.height) ∧
      (bHon.height = (if sha256 gB = sha256 bHon then bHon else gB).height →
        r.st.chain_head = honS.chain_head ∧ r.announced = none) :=
  (c7_base_add_block honS bHon).2 (sha256 gB) gB rfl (by decide)

theorem attack_core_counters (s : AttackState) (b : Block)
    (c : AttackResult) (hc : AttackMiner.add_block_core s b = some c) :
    c.st.tgt_cfrms = s.tgt_cfrms ∧ c.st.wins = s.wins ∧
    c.st.loses = s.loses ∧ c.firedWin = false ∧ c.firedLose = false ∧
    ((c.st.invalid_len = s.invalid_len ∧
      (c.st.honest_len = s.honest_len ∨
        (c.st.honest_len = s.honest_len + 1 ∧
          (s.restart = true ∨ 0 < s.invalid_len)))) ∨
     (c.st.invalid_len = s.invalid_len + 1 ∧
       c.st.honest_len = s.honest_len)) := by
  simp only [AttackMiner.add_block_core] at hc
  repeat' split at hc
  all_goals try exact Option.noConfusion hc
  all_goals cases hc
  all_goals refine ⟨rfl, rfl, rfl, rfl, rfl, ?_⟩
  all_goals
    first
    | exact Or.inr ⟨rfl, rfl⟩
    | exact Or.inl ⟨rfl, Or.inl rfl⟩
    | exact Or.inl ⟨rfl, Or.inr ⟨rfl, Or.inr (by assumption)⟩⟩
    | exact Or.inl ⟨rfl, Or.inr ⟨rfl,
        Or.inl (by simpa using ‹¬(s.restart = false)›)⟩⟩

/-- C3 counterexample: the claim says that with `invalid_len = 0` an
attacker's `add_block` never increases `honest_len` regardless of the
restart mode; in restart mode the code (src/miner.py line 482) increments
`honest_len` unconditionally for a valid block extending
`chain_head_others`, as the concrete state `c3S` shows. -/
theorem c3_restart_mode_increments_without_fork :
    c3S.invalid_len = 0 ∧ c3S.restart = true ∧
    (AttackMiner.add_block c3S bHon).map (fun r => r.st.honest_len) =
      some 1 ∧ (0 : Int) < 1 := by
  exact ⟨rfl, rfl, by decide, by norm_num⟩

/-- C3 amended: with restart mode off, a call to the attacker's
`add_block` increments `honest_len` only when `invalid_len > 0` at entry
(the race has begun); when `invalid_len = 0` the branch logic leaves
`honest_len` unchanged and the whole call never increases it.  (In
restart mode `honest_len` is instead incremented unconditionally.) -/
theorem c3_honest_len_needs_fork (s : AttackState) (b : Block)
    (c : AttackResult) (hr : s.restart = false) (hh0 : 0 ≤ s.honest_len)
    (hc : AttackMiner.add_block_core s b = some c) :
    (c.st.honest_len ≠ s.honest_len →
      0 < s.invalid_len ∧ c.st.honest_len = s.honest_len + 1) ∧
    (s.invalid_len ≤ 0 →
      c.st.honest_len = s.honest_len ∧
      (AttackMiner.reset_check c).st.honest_len ≤ s.honest_len) ∧
    AttackMiner.add_block s b = some (AttackMiner.reset_check c) := by
  obtain ⟨-, -, -, -, -, hd⟩ := attack_core_counters s b c hc
  refine ⟨?_, ?_, ?_⟩
  · intro hne
    rcases hd with ⟨hi, hh | ⟨hh, hcase⟩⟩ | ⟨hi, hh⟩
    · exact absurd hh hne
    · rcases hcase with hre | h0
      · exact absurd hre (by simp [hr])
      · exact ⟨h0, hh⟩
    · exact absurd hh hne
  · intro hi0
    have hh : c.st.honest_len = s.honest_len := by
      rcases hd with ⟨hi, hh | ⟨hh, hre | h0⟩⟩ | ⟨hi, hh⟩
      · exact hh
      · exact absurd hre (by simp [hr])
      · omega
      · exact hh
    refine ⟨hh, ?_⟩
    simp only [AttackMiner.reset_check]
    split
    · split
      · simpa using hh0
      · simpa using hh0
    · exact le_of_eq hh
  · unfold AttackMiner.add_block
    rw [hc]
    rfl

/-- C3 amended, witnessed on the forked attacker state `c3T` receiving a
valid block that extends `chain_head_others`. -/
theorem c3_honest_len_needs_fork_witness :
    0 < c3T.invalid_len ∧ c3C.st.honest_len = c3T.honest_len + 1 :=
  (c3_honest_len_needs_fork c3T bHon c3C rfl (by decide) (by decide)).1
    (by decide)

/-- C4: with `tgt_cfrms = k ≥ 1` and both race counters in `[0, k)` at
entry, the attacker's `add_block` tallies a win and fires the `win`
signal exactly when the branch logic brings `invalid_len` to `k`, tallies
a loss and fires the `lose` signal when it brings `honest_len` to `k`,
resets both counters to 0 in either case before returning, and in all
cases returns with both counters back in `[0, k)`, so in particular
`invalid_len + honest_len ≤ 2k` between resets. -/
theorem c4_race_reset (s : AttackState) (b : Block) (c : AttackResult)
    (k : Int) (hk : s.tgt_cfrms = k) (h1 : 1 ≤ k)
    (hi0 : 0 ≤ s.invalid_len) (hik : s.invalid_len < k)
    (hh0 : 0 ≤ s.honest_len) (hhk : s.honest_len < k)
    (hc : AttackMiner.add_block_core s b = some c) :
    (c.st.invalid_len = k →
      (AttackMiner.reset_check c).st.wins = s.wins + 1 ∧
      (AttackMiner.reset_check c).firedWin = true) ∧
    (c.st.honest_len = k →
      (AttackMiner.reset_check c).st.loses = s.loses + 1 ∧
      (AttackMiner.reset_check c).firedLose = true) ∧
    ((c.st.invalid_len = k ∨ c.st.honest_len = k) →
      (AttackMiner.reset_check c).st.invalid_len = 0 ∧
      (AttackMiner.reset_check c).st.honest_len = 0) ∧
    (0 ≤ (AttackMiner.reset_check c).st.invalid_len ∧
     (AttackMiner.reset_check c).st.invalid_len < k ∧
     0 ≤ (AttackMiner.reset_check c).st.honest_len ∧
     (AttackMiner.reset_check c).st.honest_len < k ∧
     (AttackMiner.reset_check c).st.invalid_len +
       (AttackMiner.reset_check c).st.honest_len ≤ 2 * k) ∧
    AttackMiner.add_block s b = some (AttackMiner.reset_check c) := by
  obtain ⟨htg, hw, hlo, hfw, hfl, hd⟩ := attack_core_counters s b c hc
  have hadd : AttackMiner.add_block s b =
      some (AttackMiner.reset_check c) := by
    unfold AttackMiner.add_block
    rw [hc]
    rfl
  have main : (c.st.invalid_len = k →
      (AttackMiner.reset_check c).st.wins = s.wins + 1 ∧
      (AttackMiner.reset_check c).firedWin = true) ∧
      (c.st.honest_len = k →
        (AttackMiner.reset_check c).st.loses = s.loses + 1 ∧
        (AttackMiner.reset_check c).firedLose = true) ∧
      ((c.st.invalid_len = k ∨ c.st.honest_len = k) →
        (AttackMiner.reset_check c).st.invalid_len = 0 ∧
        (AttackMiner.reset_check c).st.honest_len = 0) ∧
      (0 ≤ (AttackMiner.reset_check c).st.invalid_len ∧
       (AttackMiner.reset_check c).st.invalid_len < k ∧
       0 ≤ (AttackMiner.reset_check c).st.honest_len ∧
       (AttackMiner.reset_check c).st.honest_len < k ∧
       (AttackMiner.reset_check c).st.invalid_len +
         (AttackMiner.reset_check c).st.honest_len ≤ 2 * k) := by
    rcases hd with ⟨hA, hB | ⟨hB, -⟩⟩ | ⟨hA, hB⟩ <;>
    · have hone : ¬(c.st.invalid_len = k ∧ c.st.honest_len = k) := by omega
      simp only [AttackMiner.reset_check]
      split
      · rename_i hor
        split
        · rename_i heq
          dsimp only
          refine ⟨fun _ => ⟨by omega, rfl⟩, fun hh => ?_,
            fun _ => ⟨rfl, rfl⟩,
            ⟨by omega, by omega, by omega, by omega, by omega⟩⟩
          exact absurd ⟨by omega, hh⟩ hone
        · rename_i hne
          have hhonk : c.st.honest_len = c.st.tgt_cfrms :=
            hor.resolve_left hne
          dsimp only
          refine ⟨fun hik2 =>
            absurd (by omega : c.st.invalid_len = c.st.tgt_cfrms) hne,
            fun _ => ⟨by omega, rfl⟩, fun _ => ⟨rfl, rfl⟩,
            ⟨by omega, by omega, by omega, by omega, by omega⟩⟩
      · rename_i hnor
        rw [not_or] at hnor
        refine ⟨fun h =>
          absurd (by omega : c.st.invalid_len = c.st.tgt_cfrms) hnor.1,
          fun h =>
          absurd (by omega : c.st.honest_len = c.st.tgt_cfrms) hnor.2,
          fun h => ?_,
          ⟨by omega, by omega, by omega, by omega, by omega⟩⟩
        rcases h with h | h
        · exact absurd (by omega : c.st.invalid_len = c.st.tgt_cfrms) hnor.1
        · exact absurd (by omega : c.st.honest_len = c.st.tgt_cfrms) hnor.2
  exact ⟨main.1, main.2.1, main.2.2.1, main.2.2.2, hadd⟩

/-- C4, witnessed: the attacker state `c4S` (one target confirmation,
counters at zero) receiving the invalid block `bInv` brings `invalid_len`
to 1, tallies a win, and fires the `win` signal. -/
theorem c4_race_reset_witness :
    (AttackMiner.reset_check c4C).st.wins = c4S.wins + 1 ∧
    (AttackMiner.reset_check c4C).firedWin = true :=
  (c4_race_reset c4S bInv c4C 1 rfl (by norm_num) (by decide)
    (by decide) (by decide) (by decide) (by decide)).1 (by decide)

theorem goodMap_insert (U : Block → Prop) (m : BlockMap) (b : Block)
    (hm : GoodMap U m) (hb : U b) :
    GoodMap U (bmInsert m (sha256 b) b) := by
  intro k x hk
  rw [bmLookup_insert] at hk
  by_cases he : k = sha256 b
  · rw [if_pos he] at hk
    cases hk
    exact ⟨he, hb⟩
  · rw [if_neg he] at hk
    exact hm k x hk

theorem honest_add_block_some (s : MinerState) (b : Block) (h : Hash)
    (hb : Block) (hch : s.chain_head = some h)
    (hlk : bmLookup s.blocks h = some hb) :
    HonestMiner.add_block s b =
      (if (if h = sha256 b then b else hb).height < b.height ∧
          b.valid ≠ 0 then
        some ⟨{ s with
                blocks := bmInsert s.blocks (sha256 b) b
                chain_head := some (sha256 b) }, some (sha256 b)⟩
      else
        some ⟨{ s with
                blocks := bmInsert s.blocks (sha256 b) b
                chain_head := some h }, none⟩) := by
  unfold HonestMiner.add_block
  rw [hch]
  dsimp only
  rw [bmLookup_insert]
  by_cases he : h = sha256 b
  · rw [if_pos he, if_pos he]
  · rw [if_neg he, if_neg he, hlk]

theorem honest_add_preserves (U : Block → Prop) (hH : Hered U)
    (hI : HashInj U) (s : MinerState) (b : Block) (hs : HonestInv U s)
    (hb : U b) :
    ∃ r, HonestMiner.add_block s b = some r ∧ HonestInv U r.st ∧
      bmLookup r.st.blocks (sha256 b) = some b ∧
      (r.st.chain_head ≠ s.chain_head →
        b.valid = 1 ∧ r.st.chain_head = some (sha256 b)) := by
  obtain ⟨hg, h, hb2, hch, hlk, hv⟩ := hs
  rw [honest_add_block_some s b h hb2 hch hlk]
  by_cases hcond : (if h = sha256 b then b else hb2).height < b.height ∧
      b.valid ≠ 0
  · rw [if_pos hcond]
    have hbv1 : b.valid = 1 := by
      rcases hH.1 b hb with h0 | h1
      · exact absurd h0 hcond.2
      · exact h1
    refine ⟨_, rfl, ⟨goodMap_insert U s.blocks b hg hb, sha256 b, b, rfl,
      by rw [bmLookup_insert, if_pos rfl], hcond.2⟩,
      by rw [bmLookup_insert, if_pos rfl], fun _ => ⟨hbv1, rfl⟩⟩
  · rw [if_neg hcond]
    refine ⟨_, rfl, ⟨goodMap_insert U s.blocks b hg hb, h, ?_⟩,
      by rw [bmLookup_insert, if_pos rfl], fun hne => ?_⟩
    · by_cases he : h = sha256 b
      · refine ⟨b, rfl, by rw [bmLookup_insert, if_pos he], ?_⟩
        obtain ⟨hkey, hub2⟩ := hg h hb2 hlk
        have hbb : b = hb2 := hI b hb2 hb hub2 (by rw [← he, hkey])
        rw [hbb]
        exact hv
      · exact ⟨hb2, rfl, by rw [bmLookup_insert, if_neg he]; exact hlk, hv⟩
    · exact absurd (by rw [hch]) hne

theorem onchain_all_valid (U : Block → Prop) (hH : Hered U)
    (m : BlockMap) (hg : GoodMap U m) :
    ∀ h h2, OnChain m h h2 → ∀ hb, bmLookup m h = some hb →
      hb.valid ≠ 0 → ∀ b2, bmLookup m h2 = some b2 → b2.valid = 1 := by
  intro h h2 hchain
  induction hchain with
  | refl h3 =>
    intro hb hlk hv b2 hb2
    rw [hlk] at hb2
    cases hb2
    obtain ⟨-, hub⟩ := hg h3 hb hlk
    rcases hH.1 hb hub with h0 | h1
    · exact absurd h0 hv
    · exact h1
  | step h3 hb0 p h4 hlk0 hp hrec ih =>
    intro hb hlk hv b2 hb2
    have hbb : hb0 = hb := by
      have := hlk0.symm.trans hlk
      injection this
    subst hbb
    cases hl : bmLookup m p with
    | none =>
      cases hrec with
      | refl _ =>
        rw [hl] at hb2
        exact Option.noConfusion hb2
      | step _ pb _ _ hlkp _ _ =>
        rw [hl] at hlkp
        exact Option.noConfusion hlkp
    | some pb =>
      obtain ⟨hkey, hupb⟩ := hg p pb hl
      obtain ⟨-, hub0⟩ := hg h3 hb0 hlk0
      have hpv : pb.valid ≠ 0 := hH.2 hb0 hub0 hv p hp pb hupb hkey.symm
      exact ih pb hl hpv b2 hb2

theorem honest_fold_inv (U : Block → Prop) (hH : Hered U)
    (hI : HashInj U) :
    ∀ (bs : List Block) (s : MinerState), HonestInv U s →
      (∀ b ∈ bs, U b) →
      ∃ s2, honestFold s bs = some s2 ∧ HonestInv U s2 := by
  intro bs
  induction bs with
  | nil =>
    intro s hs _
    exact ⟨s, rfl, hs⟩
  | cons b t ih =>
    intro s hs hbs
    obtain ⟨r, hr, hinv, -, -⟩ :=
      honest_add_preserves U hH hI s b hs (hbs b (by simp))
    obtain ⟨s2, hf, hinv2⟩ := ih r.st hinv (fun x hx => hbs x (by simp [hx]))
    refine ⟨s2, ?_, hinv2⟩
    unfold honestFold
    rw [hr]
    exact hf

theorem honest_reset_state (U : Block → Prop) (selfId : Int) (g : Block)
    (hUg : U g) (hgv : g.valid ≠ 0) :
    HonestMiner.reset selfId g =
      some ⟨selfId, [(sha256 g, g)], some (sha256 g), []⟩ ∧
    HonestInv U ⟨selfId, [(sha256 g, g)], some (sha256 g), []⟩ := by
  constructor
  · unfold HonestMiner.reset HonestMiner.add_block
    dsimp only
    rw [bmLookup_insert, if_pos rfl]
    dsimp only
    rw [if_neg (by simp : ¬(g.height < g.height ∧ g.valid ≠ 0))]
    rfl
  · refine ⟨?_, sha256 g, g, rfl, ?_, hgv⟩
    · intro k x hk
      unfold bmLookup at hk
      by_cases he : k = sha256 g
      · rw [if_pos he] at hk
        cases hk
        exact ⟨he, hUg⟩
      · rw [if_neg he] at hk
        exact Option.noConfusion hk
    · unfold bmLookup
      rw [if_pos rfl]

theorem hered_U0 : Hered U0 := by
  constructor
  · intro b hb
    rcases hb with rfl | rfl
    · exact Or.inr rfl
    · exact Or.inr rfl
  · intro b hb hv p hp b2 hb2 hsha
    rcases hb with rfl | rfl
    · exact Option.noConfusion hp
    · have hp2 : p = sha256 gB := by
        rw [show bHon.prev = some (sha256 gB) from rfl] at hp
        injection hp with h
        exact h.symm
      rcases hb2 with rfl | rfl
      · decide
      · exfalso
        rw [hp2] at hsha
        exact absurd hsha (by decide)

theorem hashinj_U0 : HashInj U0 := by
  intro b b2 hb hb2 hsha
  rcases hb with rfl | rfl <;> rcases hb2 with rfl | rfl
  · rfl
  · exact absurd hsha (by decide)
  · exact absurd hsha (by decide)
  · rfl

/-- C2: starting from a reset with a valid genesis block, along any
sequence of `HonestMiner.add_block` calls on blocks created during the
run (whose mining policies make validity hereditary and whose
fingerprints are collision-free), the honest miner's chain head always
points at a stored block with `valid = 1`, every block on the prev-chain
from the chain head has `valid = 1`, and a single `add_block` stores the
incoming block but moves the chain head only when the block's valid bit
is set. -/
theorem c2_honest_head_and_chain_valid (U : Block → Prop) (hH : Hered U)
    (hI : HashInj U) (seed : Block) (hUs : U seed) (hsv : seed.valid = 1)
    (selfId : Int) (bs : List Block) (hbs : ∀ b ∈ bs, U b) :
    ∃ s0 s2, HonestMiner.reset selfId seed = some s0 ∧
      honestFold s0 bs = some s2 ∧
      (∃ h hb, s2.chain_head = some h ∧ bmLookup s2.blocks h = some hb ∧
        hb.valid = 1) ∧
      (∀ h h2 b2, s2.chain_head = some h → OnChain s2.blocks h h2 →
        bmLookup s2.blocks h2 = some b2 → b2.valid = 1) ∧
      (∀ t b r, HonestInv U t → U b →
        HonestMiner.add_block t b = some r →
        bmLookup r.st.blocks (sha256 b) = some b ∧
        (r.st.chain_head ≠ t.chain_head →
          b.valid = 1 ∧ r.st.chain_head = some (sha256 b))) := by
  obtain ⟨hres, hinv0⟩ :=
    honest_reset_state U selfId seed hUs (by rw [hsv]; norm_num)
  obtain ⟨s2, hf, hinv⟩ := honest_fold_inv U hH hI bs _ hinv0 hbs
  refine ⟨_, s2, hres, hf, ?_, ?_, ?_⟩
  · obtain ⟨hg, h, hb, hch, hlk, hv⟩ := hinv
    obtain ⟨-, hub⟩ := hg h hb hlk
    rcases hH.1 hb hub with h0 | h1
    · exact absurd h0 hv
    · exact ⟨h, hb, hch, hlk, h1⟩
  · intro h h2 b2 hch2 hchain hb2
    obtain ⟨hg, h3, hb3, hch3, hlk3, hv3⟩ := hinv
    rw [hch2] at hch3
    injection hch3 with he
    subst he
    exact onchain_all_valid U hH s2.blocks hg h h2 hchain hb3 hlk3 hv3 b2 hb2
  · intro t b r ht hub2 hr
    obtain ⟨r2, hr2, -, hlkb, honly⟩ :=
      honest_add_preserves U hH hI t b ht hub2
    rw [hr] at hr2
    injection hr2 with he
    subst he
    exact ⟨hlkb, honly⟩

/-- C2, witnessed on the two-block universe `U0`: genesis plus one valid
honest block fed to a freshly reset honest miner. -/
theorem c2_honest_head_and_chain_valid_witness :
    ∃ s0 s2, HonestMiner.reset 1 gB = some s0 ∧
      honestFold s0 [bHon] = some s2 ∧
      (∃ h hb, s2.chain_head = some h ∧ bmLookup s2.blocks h = some hb ∧
        hb.valid = 1) ∧
      (∀ h h2 b2, s2.chain_head = some h → OnChain s2.blocks h h2 →
        bmLookup s2.blocks h2 = some b2 → b2.valid = 1) ∧
      (∀ t b r, HonestInv U0 t → U0 b →
        HonestMiner.add_block t b = some r →
        bmLookup r.st.blocks (sha256 b) = some b ∧
        (r.st.chain_head ≠ t.chain_head →
          b.valid = 1 ∧ r.st.chain_head = some (sha256 b))) :=
  c2_honest_head_and_chain_valid U0 hered_U0 hashinj_U0 gB (Or.inl rfl)
    rfl 1 [bHon]
    (fun b hb => Or.inr (List.mem_singleton.mp hb))
